import Mathlib

/-!
Verification of `check_abspath_position.py`: a scanner that walks a source
tree, and for every `*.php` file other than `index.php` flags the file when
its `defined('ABSPATH')` guard occurs before its first `use` statement.

The two regular expressions of the source,
  `^\s*use\s+[\w\\]+`   (MULTILINE)  and  `defined\(\s*['"]ABSPATH['"]\s*\)`,
are embedded as executable matchers over `List Char`.  Both patterns are
deterministic under Python's leftmost/greedy backtracking semantics because
every starred character class is disjoint from the literal that follows it,
so the matchers below are straight-line functions.  Python's `\s` and `\w`
are modelled at their ASCII meaning (the repository's sources are ASCII).
-/

namespace Starmus

/-- Python `\s` (ASCII part): space, tab, newline, carriage return,
vertical tab, form feed. -/
def pySpace (c : Char) : Bool :=
  c = ' ' || c = '\t' || c = '\n' || c = '\r' || c = '\x0b' || c = '\x0c'

/-- Python `\w` (ASCII part): letters, digits, underscore. -/
def pyWord (c : Char) : Bool :=
  c.isAlphanum || c = '_'

/-- The character class `[\w\\]` of the use-statement pattern. -/
def useWord (c : Char) : Bool :=
  pyWord c || c = '\\'

/-- The character class `['"]` of the guard pattern: a single or a double
quote. -/
def pyQuote (c : Char) : Bool :=
  c = '\x27' || c = '"'

/-- Drop a literal prefix: `some rest` when `s = lit ++ rest`. -/
def dropLit : List Char → List Char → Option (List Char)
  | [], s => some s
  | _ :: _, [] => none
  | l :: ls, c :: cs => if c = l then dropLit ls cs else none

/-- Greedy `\s*`: the length of the maximal whitespace prefix and the rest. -/
def takeSpaces : List Char → Nat × List Char
  | [] => (0, [])
  | c :: cs =>
    if pySpace c then
      let r := takeSpaces cs
      (r.1 + 1, r.2)
    else (0, c :: cs)

/-- Greedy `[\w\\]*`: the length of the maximal word-character prefix and
the rest. -/
def takeWords : List Char → Nat × List Char
  | [] => (0, [])
  | c :: cs =>
    if useWord c then
      let r := takeWords cs
      (r.1 + 1, r.2)
    else (0, c :: cs)

/-- The literal `use` of the use-statement pattern. -/
def useLit : List Char := ['u', 's', 'e']

/-- The literal `defined(` of the guard pattern. -/
def definedLit : List Char := ['d', 'e', 'f', 'i', 'n', 'e', 'd', '(']

/-- The literal `ABSPATH` of the guard pattern. -/
def abspathLit : List Char := ['A', 'B', 'S', 'P', 'A', 'T', 'H']

/-- Match of `\s*use\s+[\w\\]+` at the head of `s` (the `^` anchor is the
caller's concern): `some n` is the length of the (deterministic greedy)
match. -/
def matchUse (s : List Char) : Option Nat :=
  match dropLit useLit (takeSpaces s).2 with
  | none => none
  | some s2 =>
    if (takeSpaces s2).1 = 0 then none
    else if (takeWords (takeSpaces s2).2).1 = 0 then none
    else some ((takeSpaces s).1 + 3 + (takeSpaces s2).1 +
      (takeWords (takeSpaces s2).2).1)

/-- Match of `defined\(\s*['"]ABSPATH['"]\s*\)` at the head of `s`:
`some n` is the length of the match.  The two quote characters are matched
by independent character classes, exactly as in the source pattern. -/
def matchGuard (s : List Char) : Option Nat :=
  match dropLit definedLit s with
  | none => none
  | some s1 =>
    match (takeSpaces s1).2 with
    | [] => none
    | q1 :: s2 =>
      if pyQuote q1 then
        match dropLit abspathLit s2 with
        | none => none
        | some s3 =>
          match s3 with
          | [] => none
          | q2 :: s4 =>
            if pyQuote q2 then
              match (takeSpaces s4).2 with
              | ')' :: _ => some (18 + (takeSpaces s1).1 + (takeSpaces s4).1)
              | _ => none
            else none
      else none

/-- `re.search`: the offset of the leftmost guard match in the suffix `s`,
counted from `pos`. -/
def searchGuardFrom : List Char → Nat → Option Nat
  | [], pos => if (matchGuard []).isSome then some pos else none
  | c :: cs, pos =>
    if (matchGuard (c :: cs)).isSome then some pos
    else searchGuardFrom cs (pos + 1)

/-- A successful use-statement match is nonempty (it contains the literal
`use`). -/
theorem matchUse_pos {s : List Char} {n : Nat} (h : matchUse s = some n) :
    0 < n := by
  unfold matchUse at h
  split at h
  · exact Option.noConfusion h
  · split_ifs at h with h2 h3
    injection h with hn
    omega

/-- `re.finditer` of the MULTILINE use-statement pattern: scan every
position left to right, attempt the pattern only where `^` matches (`bol`:
start of text or just after a newline), record the offset of each
non-overlapping match and resume at its end.  The fuel argument makes the
recursion structural; every step consumes at least one character
(`matchUse_pos`), so fuel equal to the text length never runs out. -/
def findUsesFuel : Nat → List Char → Nat → Bool → List Nat
  | 0, _, _, _ => []
  | _ + 1, [], _, _ => []
  | fuel + 1, c :: cs, pos, bol =>
    if bol then
      match matchUse (c :: cs) with
      | some n =>
        pos :: findUsesFuel fuel ((c :: cs).drop n) (pos + n)
          ((c :: cs).get? (n - 1) == some '\n')
      | none => findUsesFuel fuel cs (pos + 1) (c == '\n')
    else findUsesFuel fuel cs (pos + 1) (c == '\n')

/-- `use_statements`: the offsets of the matches of `^\s*use\s+[\w\\]+`
(MULTILINE) in `content`. -/
def use_statements (content : List Char) : List Nat :=
  findUsesFuel content.length content 0 true

/-- `abspath_check`: the offset of the leftmost match of
`defined\(\s*['"]ABSPATH['"]\s*\)` in `content`, when any. -/
def abspath_check (content : List Char) : Option Nat :=
  searchGuardFrom content 0

/-- `check_file` after a successful read: `None` when either pattern is
absent, otherwise the file path exactly when the guard offset is strictly
below the first use offset. -/
def check_file (filepath : String) (content : List Char) : Option String :=
  match use_statements content, abspath_check content with
  | [], _ => none
  | _, none => none
  | first_use_pos :: _, some abspath_pos =>
    if abspath_pos < first_use_pos then some filepath else none

/-- `check_file` including its `try`/`except`: `none` models a read that
raised (the `except` branch returns `None`); `some content` a successful
read. -/
def check_fileRead (filepath : String) (read : Option (List Char)) :
    Option String :=
  match read with
  | none => none
  | some content => check_file filepath content

/-- One regular file met by `os.walk`: the directory path yielded with it,
its base name, and what reading it produces (`none`: the read raises). -/
structure FSEntry where
  dirpath : String
  filename : String
  read : Option (List Char)
deriving DecidableEq, Repr

/-- `str.endswith`, on the character lists underlying the strings. -/
def strEndsWith (s suffix : List Char) : Bool :=
  suffix.length ≤ s.length && s.drop (s.length - suffix.length) == suffix

/-- `os.path.join(dirpath, filename)` (POSIX): an absolute second component
replaces the first; otherwise a `/` separator is inserted unless the first
component is empty or already ends in `/`. -/
def ospJoin (a b : String) : String :=
  if b.data.head? == some '/' then b
  else if a.data == [] || strEndsWith a.data ['/'] then a ++ b
  else a ++ "/" ++ b

/-- The path the scanner builds for an entry. -/
def entryPath (e : FSEntry) : String :=
  ospJoin e.dirpath e.filename

/-- The literal suffix `.php` of the name filter. -/
def phpSuffix : List Char := ['.', 'p', 'h', 'p']

/-- The literal excluded base name `index.php`. -/
def indexPhpName : List Char :=
  ['i', 'n', 'd', 'e', 'x', '.', 'p', 'h', 'p']

/-- The name filter of the walk loop: base name ends in `.php` and is not
exactly `index.php`. -/
def isCandidate (e : FSEntry) : Bool :=
  strEndsWith e.filename.data phpSuffix && !(e.filename.data == indexPhpName)

/-- One iteration of the walk loop body: the path printed for this file,
if any.  `if res:` prints only a truthy (nonempty) result. -/
def walkStep (e : FSEntry) : Option String :=
  if isCandidate e then
    match check_fileRead (entryPath e) e.read with
    | some p => if p = "" then none else some p
    | none => none
  else none

/-- The walk loop: the sequence of paths printed over the files of the
tree, in the (fixed, for a fixed tree) order `os.walk` yields them. -/
def walkOutput (tree : List FSEntry) : List String :=
  tree.filterMap walkStep

/-- A variant of the guard matcher that follows the specification text
instead of the source: the closing quote must be the same character as the
opening quote.  Used only to compare the spec's description of the pattern
with the pattern the code actually uses. -/
def matchGuardMatching (s : List Char) : Option Nat :=
  match dropLit definedLit s with
  | none => none
  | some s1 =>
    match (takeSpaces s1).2 with
    | [] => none
    | q1 :: s2 =>
      if pyQuote q1 then
        match dropLit abspathLit s2 with
        | none => none
        | some s3 =>
          match s3 with
          | [] => none
          | q2 :: s4 =>
            if q2 = q1 then
              match (takeSpaces s4).2 with
              | ')' :: _ => some (18 + (takeSpaces s1).1 + (takeSpaces s4).1)
              | _ => none
            else none
      else none

/-! ### Characterizations of the elementary matchers -/

/-- No character is both Python whitespace and a `[\w\\]` character. -/
theorem pySpace_not_useWord {ch : Char} (h : pySpace ch = true) :
    useWord ch = false := by
  simp only [pySpace, Bool.or_eq_true, decide_eq_true_eq] at h
  rcases h with ((((h | h) | h) | h) | h) | h <;> subst h <;> decide

/-- A quote character is not Python whitespace. -/
theorem pyQuote_not_pySpace {ch : Char} (h : pyQuote ch = true) :
    pySpace ch = false := by
  simp only [pyQuote, Bool.or_eq_true, decide_eq_true_eq] at h
  rcases h with h | h <;> subst h <;> decide

/-- The head of a list fails the test `P`; vacuously true of `[]`. -/
def headNot (P : Char → Bool) (r : List Char) : Prop :=
  ∀ ch, r.head? = some ch → P ch = false

theorem headNot_nil (P : Char → Bool) : headNot P [] := by
  intro ch h; cases h

theorem headNot_cons {P : Char → Bool} {c : Char} {r : List Char}
    (h : P c = false) : headNot P (c :: r) := by
  intro ch hc
  simp only [List.head?_cons, Option.some.injEq] at hc
  exact hc ▸ h

theorem headNot_take {P : Char → Bool} {r : List Char} (k : Nat)
    (h : headNot P r) : headNot P (r.take k) := by
  intro ch hc
  cases r with
  | nil => simp at hc
  | cons a r' =>
    cases k with
    | zero => cases hc
    | succ k' =>
      simp only [List.take_succ_cons, List.head?_cons,
        Option.some.injEq] at hc
      exact h ch (by simp [hc])

/-- `dropLit` succeeds exactly on lists with the literal as a prefix. -/
theorem dropLit_iff (lit s r : List Char) :
    dropLit lit s = some r ↔ s = lit ++ r := by
  induction lit generalizing s with
  | nil => simp [dropLit]
  | cons l ls ih =>
    cases s with
    | nil => simp [dropLit]
    | cons c cs =>
      by_cases h : c = l
      · subst h
        simp only [dropLit, if_pos rfl, List.cons_append, List.cons.injEq,
          true_and]
        exact ih cs
      · simp [dropLit, h, Ne.symm h]

/-- `takeSpaces` splits off a whitespace prefix with a non-whitespace
head on the remainder. -/
theorem takeSpaces_decomp (s : List Char) :
    ∃ w r, s = w ++ r ∧ takeSpaces s = (w.length, r) ∧
      (∀ ch ∈ w, pySpace ch = true) ∧ headNot pySpace r := by
  induction s with
  | nil => exact ⟨[], [], by simp [takeSpaces], by simp [takeSpaces],
      by simp, headNot_nil _⟩
  | cons c cs ih =>
    by_cases h : pySpace c = true
    · obtain ⟨w, r, hw, he, hall, hhead⟩ := ih
      refine ⟨c :: w, r, by simp [← hw], ?_, ?_, hhead⟩
      · simp [takeSpaces, h, he]
      · intro ch hch
        rcases List.mem_cons.mp hch with rfl | hch
        · exact h
        · exact hall ch hch
    · refine ⟨[], c :: cs, by simp, by simp [takeSpaces, h], by simp, ?_⟩
      exact headNot_cons (by simpa using h)

/-- Conversely, `takeSpaces` is determined by such a split. -/
theorem takeSpaces_of_decomp {w r : List Char}
    (hall : ∀ ch ∈ w, pySpace ch = true) (hr : headNot pySpace r) :
    takeSpaces (w ++ r) = (w.length, r) := by
  induction w with
  | nil =>
    cases r with
    | nil => simp [takeSpaces]
    | cons c cs =>
      have := hr c (by simp)
      simp [takeSpaces, this]
  | cons c w' ih =>
    have hc := hall c (by simp)
    have := ih (fun ch hch => hall ch (by simp [hch]))
    simp [takeSpaces, hc, this]

/-- `takeWords` splits off a `[\w\\]` prefix with a non-word head on the
remainder. -/
theorem takeWords_decomp (s : List Char) :
    ∃ w r, s = w ++ r ∧ takeWords s = (w.length, r) ∧
      (∀ ch ∈ w, useWord ch = true) ∧ headNot useWord r := by
  induction s with
  | nil => exact ⟨[], [], by simp [takeWords], by simp [takeWords],
      by simp, headNot_nil _⟩
  | cons c cs ih =>
    by_cases h : useWord c = true
    · obtain ⟨w, r, hw, he, hall, hhead⟩ := ih
      refine ⟨c :: w, r, by simp [← hw], ?_, ?_, hhead⟩
      · simp [takeWords, h, he]
      · intro ch hch
        rcases List.mem_cons.mp hch with rfl | hch
        · exact h
        · exact hall ch hch
    · refine ⟨[], c :: cs, by simp, by simp [takeWords, h], by simp, ?_⟩
      exact headNot_cons (by simpa using h)

/-- Conversely, `takeWords` is determined by such a split. -/
theorem takeWords_of_decomp {w r : List Char}
    (hall : ∀ ch ∈ w, useWord ch = true) (hr : headNot useWord r) :
    takeWords (w ++ r) = (w.length, r) := by
  induction w with
  | nil =>
    cases r with
    | nil => simp [takeWords]
    | cons c cs =>
      have := hr c (by simp)
      simp [takeWords, this]
  | cons c w' ih =>
    have hc := hall c (by simp)
    have := ih (fun ch hch => hall ch (by simp [hch]))
    simp [takeWords, hc, this]

/-- A `[\w\\]` character is not Python whitespace. -/
theorem useWord_not_pySpace {ch : Char} (h : useWord ch = true) :
    pySpace ch = false := by
  by_cases hs : pySpace ch = true
  · rw [pySpace_not_useWord hs] at h; cases h
  · simpa using hs

/-- A use-statement match is exactly a whitespace block, the literal
`use`, a nonempty whitespace block and a nonempty `[\w\\]` block that is
maximal (the remainder does not begin with a `[\w\\]` character). -/
theorem matchUse_iff (s : List Char) (n : Nat) :
    matchUse s = some n ↔ ∃ w1 w2 w3 rest,
      s = w1 ++ (useLit ++ (w2 ++ (w3 ++ rest))) ∧
      (∀ ch ∈ w1, pySpace ch = true) ∧
      (∀ ch ∈ w2, pySpace ch = true) ∧ w2 ≠ [] ∧
      (∀ ch ∈ w3, useWord ch = true) ∧ w3 ≠ [] ∧
      headNot useWord rest ∧
      n = w1.length + 3 + w2.length + w3.length := by
  constructor
  · intro h
    unfold matchUse at h
    split at h
    · exact Option.noConfusion h
    case _ s2 hdl =>
      split_ifs at h with h2 h3
      injection h with hn
      obtain ⟨w1, r1, hs1, he1, hall1, _⟩ := takeSpaces_decomp s
      have he1a : (takeSpaces s).1 = w1.length := by rw [he1]
      have he1b : (takeSpaces s).2 = r1 := by rw [he1]
      rw [he1b] at hdl
      rw [he1a] at hn
      have hr1 : r1 = useLit ++ s2 := (dropLit_iff _ _ _).mp hdl
      obtain ⟨w2, r2, hs2, he2, hall2, _⟩ := takeSpaces_decomp s2
      have he2a : (takeSpaces s2).1 = w2.length := by rw [he2]
      have he2b : (takeSpaces s2).2 = r2 := by rw [he2]
      rw [he2a] at h2 hn
      rw [he2b] at h3 hn
      obtain ⟨w3, rest, hs3, he3, hall3, hh3⟩ := takeWords_decomp r2
      have he3a : (takeWords r2).1 = w3.length := by rw [he3]
      rw [he3a] at h3 hn
      refine ⟨w1, w2, w3, rest, ?_, hall1, hall2, ?_, hall3, ?_, hh3, ?_⟩
      · rw [hs1, hr1, hs2, hs3]
      · intro hw; rw [hw] at h2; exact h2 rfl
      · intro hw; rw [hw] at h3; exact h3 rfl
      · omega
  · rintro ⟨w1, w2, w3, rest, hs, hall1, hall2, hne2, hall3, hne3, hrest, hn⟩
    have hh1 : headNot pySpace (useLit ++ (w2 ++ (w3 ++ rest))) := by
      intro ch hch
      simp only [useLit, List.cons_append, List.head?_cons,
        Option.some.injEq] at hch
      rw [← hch]; decide
    have h1 : takeSpaces (w1 ++ (useLit ++ (w2 ++ (w3 ++ rest)))) =
        (w1.length, useLit ++ (w2 ++ (w3 ++ rest))) :=
      takeSpaces_of_decomp hall1 hh1
    have h2 : dropLit useLit (useLit ++ (w2 ++ (w3 ++ rest))) =
        some (w2 ++ (w3 ++ rest)) := (dropLit_iff _ _ _).mpr rfl
    have hw3head : headNot pySpace (w3 ++ rest) := by
      cases w3 with
      | nil => exact absurd rfl hne3
      | cons c w3' =>
        exact headNot_cons (useWord_not_pySpace (hall3 c (by simp)))
    have h3 : takeSpaces (w2 ++ (w3 ++ rest)) = (w2.length, w3 ++ rest) :=
      takeSpaces_of_decomp hall2 hw3head
    have h4 : takeWords (w3 ++ rest) = (w3.length, rest) :=
      takeWords_of_decomp hall3 hrest
    subst hs
    unfold matchUse
    rw [h1]
    simp only [h2, h3, h4]
    rw [if_neg (by simpa using hne2), if_neg (by simpa using hne3)]
    simp [hn]

/-- A guard match is exactly the literal `defined(`, a whitespace block, a
quote, the literal `ABSPATH`, a quote (independent of the first), a
whitespace block and `)`. -/
theorem matchGuard_iff (s : List Char) (n : Nat) :
    matchGuard s = some n ↔ ∃ w1 q1 q2 w2 rest,
      s = definedLit ++
        (w1 ++ (q1 :: (abspathLit ++ (q2 :: (w2 ++ (')' :: rest)))))) ∧
      (∀ ch ∈ w1, pySpace ch = true) ∧ pyQuote q1 = true ∧
      pyQuote q2 = true ∧ (∀ ch ∈ w2, pySpace ch = true) ∧
      n = 18 + w1.length + w2.length := by
  constructor
  · intro h
    unfold matchGuard at h
    split at h
    · exact Option.noConfusion h
    case _ s1 hdl1 =>
      split at h
      · exact Option.noConfusion h
      case _ q1 s2 hq1eq =>
        split_ifs at h with hq1
        split at h
        · exact Option.noConfusion h
        case _ s3 hdl2 =>
          split at h
          · exact Option.noConfusion h
          case _ q2 s4 =>
            split_ifs at h with hq2
            split at h
            case _ tail hcl =>
              injection h with hn
              obtain ⟨w1, r1, hw1s, he1, hall1, _⟩ := takeSpaces_decomp s1
              have he1a : (takeSpaces s1).1 = w1.length := by rw [he1]
              have he1b : (takeSpaces s1).2 = r1 := by rw [he1]
              rw [he1b] at hq1eq
              rw [he1a] at hn
              obtain ⟨w2, r2, hw2s, he2, hall2, _⟩ := takeSpaces_decomp s4
              have he2a : (takeSpaces s4).1 = w2.length := by rw [he2]
              have he2b : (takeSpaces s4).2 = r2 := by rw [he2]
              rw [he2b] at hcl
              rw [he2a] at hn
              have hs1 : s = definedLit ++ s1 := (dropLit_iff _ _ _).mp hdl1
              have hs2v : s2 = abspathLit ++ (q2 :: s4) :=
                (dropLit_iff _ _ _).mp hdl2
              refine ⟨w1, q1, q2, w2, tail, ?_, hall1, hq1, hq2, hall2, ?_⟩
              · rw [hs1, hw1s, hq1eq, hs2v, hw2s, hcl]
              · omega
            case _ =>
              exact Option.noConfusion h
  · rintro ⟨w1, q1, q2, w2, rest, hs, hall1, hq1, hq2, hall2, hn⟩
    have h1 : dropLit definedLit s =
        some (w1 ++ (q1 :: (abspathLit ++ (q2 :: (w2 ++ (')' :: rest)))))) :=
      (dropLit_iff _ _ _).mpr hs
    have h2 : takeSpaces (w1 ++ (q1 :: (abspathLit ++ (q2 :: (w2 ++ (')' :: rest)))))) =
        (w1.length, q1 :: (abspathLit ++ (q2 :: (w2 ++ (')' :: rest))))) :=
      takeSpaces_of_decomp hall1 (headNot_cons (pyQuote_not_pySpace hq1))
    have h3 : dropLit abspathLit (abspathLit ++ (q2 :: (w2 ++ (')' :: rest)))) =
        some (q2 :: (w2 ++ (')' :: rest))) := (dropLit_iff _ _ _).mpr rfl
    have h4 : takeSpaces (w2 ++ (')' :: rest)) = (w2.length, ')' :: rest) :=
      takeSpaces_of_decomp hall2 (headNot_cons (by decide))
    unfold matchGuard
    rw [h1]
    simp only [h2, h3, hq1, if_true]
    rw [if_pos hq2]
    simp only [h4]
    simp [hn]

/-! ### Prefix determinism, persistence under appending, length bounds -/

/-- Splitting an equation `t ++ A = X ++ Y` at the end of `t` when `X`
fits inside `t`. -/
theorem prefix_of_append_eq {t A X Y : List Char} (h : t ++ A = X ++ Y)
    (hle : X.length ≤ t.length) :
    t = X ++ Y.take (t.length - X.length) := by
  have h1 : t = (t ++ A).take t.length := by
    rw [List.take_left]
  rw [h, List.take_append_eq_append_take, List.take_of_length_le hle] at h1
  exact h1

/-- A use-statement match is at least 5 characters and fits in the text. -/
theorem matchUse_bounds {s : List Char} {n : Nat} (h : matchUse s = some n) :
    5 ≤ n ∧ n ≤ s.length := by
  rw [matchUse_iff] at h
  obtain ⟨w1, w2, w3, rest, hs, _, _, hne2, _, hne3, _, hn⟩ := h
  have h2 : 1 ≤ w2.length := List.length_pos.mpr hne2
  have h3 : 1 ≤ w3.length := List.length_pos.mpr hne3
  have hlen : s.length = w1.length + (3 + (w2.length + (w3.length +
      rest.length))) := by
    rw [hs]; simp [useLit]; omega
  constructor <;> omega

/-- A guard match is at least 18 characters and fits in the text. -/
theorem matchGuard_bounds {s : List Char} {n : Nat}
    (h : matchGuard s = some n) : 18 ≤ n ∧ n ≤ s.length := by
  rw [matchGuard_iff] at h
  obtain ⟨w1, q1, q2, w2, rest, hs, _, _, _, _, hn⟩ := h
  have hlen : s.length = 8 + (w1.length + (1 + (7 + (1 + (w2.length +
      (1 + rest.length)))))) := by
    rw [hs]; simp [definedLit, abspathLit]; omega
  constructor <;> omega

/-- A use-statement match that fits inside `t` is already a match of `t`:
the matcher only reads the first `n` characters. -/
theorem matchUse_take {t A : List Char} {n : Nat}
    (h : matchUse (t ++ A) = some n) (hle : n ≤ t.length) :
    matchUse t = some n := by
  rw [matchUse_iff] at h ⊢
  obtain ⟨w1, w2, w3, rest, hs, hall1, hall2, hne2, hall3, hne3, hrest, hn⟩ := h
  have hs' : t ++ A = (w1 ++ useLit ++ w2 ++ w3) ++ rest := by
    rw [hs]; simp [List.append_assoc]
  have hX : (w1 ++ useLit ++ w2 ++ w3).length = n := by
    simp [useLit]; omega
  have ht : t = (w1 ++ useLit ++ w2 ++ w3) ++
      rest.take (t.length - (w1 ++ useLit ++ w2 ++ w3).length) :=
    prefix_of_append_eq hs' (hX ▸ hle)
  rw [hX] at ht
  refine ⟨w1, w2, w3, rest.take (t.length - n), ?_, hall1, hall2, hne2,
    hall3, hne3, headNot_take _ hrest, hn⟩
  conv_lhs => rw [ht]
  simp [List.append_assoc]

/-- A guard match that fits inside `t` is already a match of `t`. -/
theorem matchGuard_take {t A : List Char} {n : Nat}
    (h : matchGuard (t ++ A) = some n) (hle : n ≤ t.length) :
    matchGuard t = some n := by
  rw [matchGuard_iff] at h ⊢
  obtain ⟨w1, q1, q2, w2, rest, hs, hall1, hq1, hq2, hall2, hn⟩ := h
  have hs' : t ++ A =
      (definedLit ++ w1 ++ q1 :: abspathLit ++ q2 :: w2 ++ [')']) ++ rest := by
    rw [hs]; simp [List.append_assoc]
  have hX : (definedLit ++ w1 ++ q1 :: abspathLit ++ q2 :: w2 ++ [')']).length
      = n := by
    simp [definedLit, abspathLit]; omega
  have ht := prefix_of_append_eq hs' (hX ▸ hle)
  rw [hX] at ht
  refine ⟨w1, q1, q2, w2, rest.take (t.length - n), ?_, hall1, hq1, hq2,
    hall2, hn⟩
  conv_lhs => rw [ht]
  simp [List.append_assoc]

/-- A guard match of `t` is still a guard match, with the same length,
after appending anything to `t`. -/
theorem matchGuard_append {t : List Char} (A : List Char) {n : Nat}
    (h : matchGuard t = some n) : matchGuard (t ++ A) = some n := by
  rw [matchGuard_iff] at h ⊢
  obtain ⟨w1, q1, q2, w2, rest, hs, hall1, hq1, hq2, hall2, hn⟩ := h
  refine ⟨w1, q1, q2, w2, rest ++ A, ?_, hall1, hq1, hq2, hall2, hn⟩
  rw [hs]; simp [List.append_assoc]

/-- A successful use-statement match survives appending (its length may
grow: a trailing word run can extend into the appended text). -/
theorem matchUse_append_isSome {t : List Char} (A : List Char)
    (h : (matchUse t).isSome) : (matchUse (t ++ A)).isSome := by
  rw [Option.isSome_iff_exists] at h ⊢
  obtain ⟨n, h⟩ := h
  rw [matchUse_iff] at h
  obtain ⟨w1, w2, w3, rest, hs, hall1, hall2, hne2, hall3, hne3, hrest, hn⟩ := h
  cases rest with
  | cons c rest' =>
    refine ⟨n, ?_⟩
    rw [matchUse_iff]
    refine ⟨w1, w2, w3, c :: rest' ++ A, ?_, hall1, hall2, hne2, hall3,
      hne3, ?_, hn⟩
    · rw [hs]; simp [List.append_assoc]
    · exact headNot_cons (hrest c rfl)
  | nil =>
    obtain ⟨wA, rA, hA, heA, hallA, hheadA⟩ := takeWords_decomp A
    refine ⟨w1.length + 3 + w2.length + (w3 ++ wA).length, ?_⟩
    rw [matchUse_iff]
    refine ⟨w1, w2, w3 ++ wA, rA, ?_, hall1, hall2, hne2, ?_, ?_, hheadA, rfl⟩
    · rw [hs, hA]; simp [List.append_assoc]
    · intro ch hch
      rcases List.mem_append.mp hch with hch | hch
      · exact hall3 ch hch
      · exact hallA ch hch
    · intro hw
      exact hne3 (by simpa using congrArg (List.take w3.length) hw)

/-! ### Spanning: a match reaching beyond the original text cannot start
before an existing match -/

/-- Prepending whitespace preserves matchability of the use pattern. -/
theorem matchUse_after_spaces {w s : List Char}
    (hall : ∀ ch ∈ w, pySpace ch = true) (h : (matchUse s).isSome) :
    (matchUse (w ++ s)).isSome := by
  rw [Option.isSome_iff_exists] at h ⊢
  obtain ⟨n, h⟩ := h
  rw [matchUse_iff] at h
  obtain ⟨w1, w2, w3, rest, hs, hall1, hall2, hne2, hall3, hne3, hrest, hn⟩ := h
  refine ⟨w.length + n, ?_⟩
  rw [matchUse_iff]
  refine ⟨w ++ w1, w2, w3, rest, ?_, ?_, hall2, hne2, hall3, hne3, hrest, ?_⟩
  · rw [hs]; simp [List.append_assoc]
  · intro ch hch
    rcases List.mem_append.mp hch with hch | hch
    · exact hall ch hch
    · exact hall1 ch hch
  · simp [hn]; omega

/-- If the use pattern matches the extended text `t ++ A` at its start and
also matches `t` at a later line start `δ`, then it already matches `t` at
its start: a match cannot reach past the end of `t` across the complete
match sitting at `δ`. -/
theorem matchUse_span {t A : List Char} {n m δ : Nat}
    (h : matchUse (t ++ A) = some n) (hδm : matchUse (t.drop δ) = some m)
    (hδ1 : 1 ≤ δ) (hδL : δ < t.length) (hnl : t.get? (δ - 1) = some '\n') :
    (matchUse t).isSome := by
  by_cases hle : n ≤ t.length
  · exact Option.isSome_iff_exists.mpr ⟨n, matchUse_take h hle⟩
  push_neg at hle
  rw [matchUse_iff] at h
  obtain ⟨w1, w2, w3, rest, hs, hall1, hall2, hne2, hall3, hne3, hrest, hn⟩ := h
  have hs' : t ++ A = (w1 ++ useLit ++ w2 ++ w3) ++ rest := by
    rw [hs]; simp [List.append_assoc]
  have hX : (w1 ++ useLit ++ w2 ++ w3).length = n := by
    simp [useLit]; omega
  have ht : t = (w1 ++ useLit ++ w2 ++ w3).take t.length := by
    have h1 : t = (t ++ A).take t.length := by rw [List.take_left]
    rw [hs', List.take_append_eq_append_take] at h1
    have h0 : t.length - (w1 ++ useLit ++ w2 ++ w3).length = 0 := by omega
    rw [h0, List.take_zero, List.append_nil] at h1
    exact h1
  have hnlW : (w1 ++ useLit ++ w2 ++ w3).get? (δ - 1) = some '\n' := by
    rw [ht] at hnl
    rwa [List.get?_take (by omega)] at hnl
  rcases Nat.lt_or_ge (δ - 1) w1.length with hA | hBCD
  · -- the newline sits in the leading whitespace block: the later match
    -- extends to a full match after a whitespace prefix of `t`
    have htake : t.take δ = w1.take δ := by
      conv_lhs => rw [ht]
      rw [List.take_take, Nat.min_eq_left (by omega)]
      rw [List.append_assoc, List.append_assoc,
        List.take_append_of_le_length (by omega)]
    have hsp : ∀ ch ∈ t.take δ, pySpace ch = true := by
      intro ch hch
      rw [htake] at hch
      exact hall1 ch (List.take_subset _ _ hch)
    have := matchUse_after_spaces hsp
      (Option.isSome_iff_exists.mpr ⟨m, hδm⟩)
    rwa [List.take_append_drop] at this
  rcases Nat.lt_or_ge (δ - 1) (w1.length + 3) with hB | hCD
  · -- impossible: the newline would be a character of the literal `use`
    exfalso
    rw [List.append_assoc, List.append_assoc,
      List.get?_append_right (by omega)] at hnlW
    rw [List.get?_append (by simp [useLit]; omega)] at hnlW
    set j := δ - 1 - w1.length with hjdef
    have hj : j < 3 := by omega
    interval_cases j <;> exact absurd hnlW (by decide)
  rcases Nat.lt_or_ge (δ - 1) (w1.length + 3 + w2.length) with hC | hD
  · -- the newline sits in the second whitespace block: `t` matches with
    -- the `use` literal of the later match serving as the word block
    rw [matchUse_iff] at hδm
    obtain ⟨v1, v2, v3, rest2, hv, vall1, vall2, vne2, vall3, vne3, vrest, hm⟩
      := hδm
    have hδle : δ ≤ w1.length + 3 + w2.length := by omega
    have htake : t.take δ =
        w1 ++ useLit ++ w2.take (δ - (w1.length + 3)) := by
      conv_lhs => rw [ht]
      rw [List.take_take, Nat.min_eq_left (by omega)]
      have e1 : w1 ++ useLit ++ w2 ++ w3 = (w1 ++ useLit) ++ (w2 ++ w3) := by
        simp [List.append_assoc]
      have hδsplit : δ = (w1 ++ useLit).length + (δ - (w1.length + 3)) := by
        simp [useLit]; omega
      conv_lhs => rw [e1, hδsplit, List.take_append]
      rw [List.take_append_of_le_length (by omega)]
    have hteq : t = w1 ++ useLit ++ w2.take (δ - (w1.length + 3)) ++
        (v1 ++ (useLit ++ (v2 ++ (v3 ++ rest2)))) := by
      conv_lhs => rw [← List.take_append_drop δ t]
      rw [htake, hv]
    rw [Option.isSome_iff_exists]
    refine ⟨w1.length + 3 + (w2.take (δ - (w1.length + 3)) ++ v1).length + 3,
      ?_⟩
    rw [matchUse_iff]
    refine ⟨w1, w2.take (δ - (w1.length + 3)) ++ v1, useLit,
      v2 ++ (v3 ++ rest2), ?_, hall1, ?_, ?_, by decide, by decide, ?_, ?_⟩
    · rw [hteq]; simp [List.append_assoc]
    · intro ch hch
      rcases List.mem_append.mp hch with hch | hch
      · exact hall2 ch (List.take_subset _ _ hch)
      · exact vall1 ch hch
    · intro hnil
      have hlen0 : (w2.take (δ - (w1.length + 3))).length + v1.length = 0 := by
        rw [← List.length_append, hnil]; rfl
      rw [List.length_take] at hlen0
      have h2 : 0 < w2.length := List.length_pos.mpr hne2
      omega
    · cases v2 with
      | nil => exact absurd rfl vne2
      | cons c v2' =>
        exact headNot_cons (pySpace_not_useWord (vall2 c (by simp)))
    · simp [useLit]
  · -- impossible: the newline would be a `[\w\\]` character
    exfalso
    rw [List.get?_append_right (by simp [useLit]; omega)] at hnlW
    have hmem : '\n' ∈ w3 := List.get?_mem hnlW
    exact absurd (hall3 _ hmem) (by decide)

/-- If the guard pattern matches the extended text `t ++ A` at its start
and also matches `t` at a later position `δ`, then it already matches `t`
at its start: every character of a guard match other than positions 0 and
6 of its `defined(` literal differs from `d`, so a match cannot reach past
the end of `t` across the complete match sitting at `δ`. -/
theorem matchGuard_span {t A : List Char} {n m δ : Nat}
    (h : matchGuard (t ++ A) = some n) (hδm : matchGuard (t.drop δ) = some m)
    (hδ1 : 1 ≤ δ) (hδL : δ < t.length) : (matchGuard t).isSome := by
  by_cases hle : n ≤ t.length
  · exact Option.isSome_iff_exists.mpr ⟨n, matchGuard_take h hle⟩
  exfalso
  push_neg at hle
  rw [matchGuard_iff] at h
  obtain ⟨w1, q1, q2, w2, rest, hs, hall1, hq1, hq2, hall2, hn⟩ := h
  have hs' : t ++ A = (definedLit ++
      (w1 ++ ([q1] ++ (abspathLit ++ ([q2] ++ (w2 ++ [')'])))))) ++ rest := by
    rw [hs]; simp [List.append_assoc]
  have hX : (definedLit ++
      (w1 ++ ([q1] ++ (abspathLit ++ ([q2] ++ (w2 ++ [')'])))))).length
      = n := by
    simp [definedLit, abspathLit]; omega
  have ht : t = (definedLit ++
      (w1 ++ ([q1] ++ (abspathLit ++ ([q2] ++ (w2 ++ [')'])))))).take
      t.length := by
    have h1 : t = (t ++ A).take t.length := by rw [List.take_left]
    rw [hs', List.take_append_eq_append_take] at h1
    have h0 : t.length - (definedLit ++
        (w1 ++ ([q1] ++ (abspathLit ++ ([q2] ++ (w2 ++ [')'])))))).length
        = 0 := by omega
    rw [h0, List.take_zero, List.append_nil] at h1
    exact h1
  have hbounds := matchGuard_bounds hδm
  have hδ2 : δ + 1 < t.length := by
    have h2 := hbounds.2
    rw [List.length_drop] at h2
    have := hbounds.1
    omega
  rw [matchGuard_iff] at hδm
  obtain ⟨v1, p1, p2, v2, rest2, hv, _, _, _, _, _⟩ := hδm
  have hdd : t.get? δ = some 'd' := by
    have h0 : (t.drop δ).get? 0 = some 'd' := by rw [hv]; rfl
    rw [List.get?_drop] at h0
    simpa using h0
  have hde : t.get? (δ + 1) = some 'e' := by
    have h0 : (t.drop δ).get? 1 = some 'e' := by rw [hv]; rfl
    rw [List.get?_drop] at h0
    simpa using h0
  rw [ht, List.get?_take (by omega)] at hdd
  rw [ht, List.get?_take (by omega)] at hde
  have hnoD : ∀ ch ∈ w1 ++ ([q1] ++ (abspathLit ++ ([q2] ++ (w2 ++ [')'])))),
      ch ≠ 'd' := by
    intro ch hch hchd
    subst hchd
    rcases List.mem_append.mp hch with hm1 | hch
    · exact absurd (hall1 _ hm1) (by decide)
    rcases List.mem_append.mp hch with hm1 | hch
    · rw [← List.mem_singleton.mp hm1] at hq1
      exact absurd hq1 (by decide)
    rcases List.mem_append.mp hch with hm1 | hch
    · exact absurd hm1 (by decide)
    rcases List.mem_append.mp hch with hm1 | hch
    · rw [← List.mem_singleton.mp hm1] at hq2
      exact absurd hq2 (by decide)
    rcases List.mem_append.mp hch with hm1 | hch
    · exact absurd (hall2 _ hm1) (by decide)
    · exact absurd hch (by decide)
  by_cases hδ8 : δ < 8
  · rw [List.get?_append (by simp [definedLit]; omega)] at hdd
    interval_cases δ
    · exact absurd hdd (by decide)
    · exact absurd hdd (by decide)
    · exact absurd hdd (by decide)
    · exact absurd hdd (by decide)
    · exact absurd hdd (by decide)
    · rw [List.get?_append (by simp [definedLit])] at hde
      exact absurd hde (by decide)
    · exact absurd hdd (by decide)
  · push_neg at hδ8
    rw [List.get?_append_right (by simp [definedLit]; omega)] at hdd
    exact hnoD _ (List.get?_mem hdd) rfl

/-! ### Characterization of the two scanners -/

/-- `^` (MULTILINE) matches at offset `i` of the suffix being scanned:
at offset `0` exactly when the scanner's begin-of-line flag is set, and
further in exactly after a newline. -/
def bolR (s : List Char) (bol : Bool) (i : Nat) : Prop :=
  if i = 0 then bol = true else s.get? (i - 1) = some '\n'

theorem bolR_cons {c : Char} {cs : List Char} {bol : Bool} {i : Nat} :
    bolR (c :: cs) bol (i + 1) ↔ bolR cs (c == '\n') i := by
  cases i with
  | zero => simp [bolR]
  | succ j => simp [bolR]

/-- `searchGuardFrom` finds position `pos + i` when the guard matches at
offset `i` and nowhere earlier. -/
theorem searchGuardFrom_intro : ∀ (s : List Char) (pos i : Nat),
    (matchGuard (s.drop i)).isSome →
    (∀ j, j < i → matchGuard (s.drop j) = none) →
    searchGuardFrom s pos = some (pos + i) := by
  intro s
  induction s with
  | nil =>
    intro pos i hi _
    rw [List.drop_nil] at hi
    exact absurd hi (by decide)
  | cons c cs ih =>
    intro pos i hi hj
    cases i with
    | zero =>
      unfold searchGuardFrom
      rw [if_pos (by simpa using hi)]
      simp
    | succ i' =>
      have h0 : matchGuard (c :: cs) = none := by
        simpa using hj 0 (Nat.succ_pos i')
      unfold searchGuardFrom
      rw [if_neg (by simp [h0])]
      have hrec := ih (pos + 1) i' (by simpa using hi) (fun j hjlt => by
        simpa using hj (j + 1) (by omega))
      rw [hrec]
      congr 1
      omega

/-- What a successful `searchGuardFrom` means: a leftmost guard match. -/
theorem searchGuardFrom_elim : ∀ (s : List Char) (pos g : Nat),
    searchGuardFrom s pos = some g →
    ∃ i, g = pos + i ∧ (matchGuard (s.drop i)).isSome ∧
      ∀ j, j < i → matchGuard (s.drop j) = none := by
  intro s
  induction s with
  | nil =>
    intro pos g h
    exact Option.noConfusion h
  | cons c cs ih =>
    intro pos g h
    unfold searchGuardFrom at h
    by_cases hm : (matchGuard (c :: cs)).isSome
    · rw [if_pos hm] at h
      injection h with hg
      exact ⟨0, by omega, by simpa using hm,
        fun j hj => absurd hj (Nat.not_lt_zero j)⟩
    · rw [if_neg hm] at h
      obtain ⟨i, hg, hi, hj⟩ := ih (pos + 1) g h
      refine ⟨i + 1, by omega, by simpa using hi, ?_⟩
      intro j hjlt
      cases j with
      | zero =>
        simpa using Option.not_isSome_iff_eq_none.mp hm
      | succ j' =>
        simpa using hj j' (by omega)

/-- The scan reports `pos + i` first when the use pattern matches at the
line start `i` and at no earlier line start. -/
theorem findUses_head_intro : ∀ (fuel : Nat) (s : List Char) (pos : Nat)
    (bol : Bool) (i : Nat), s.length ≤ fuel → bolR s bol i →
    (matchUse (s.drop i)).isSome →
    (∀ j, j < i → bolR s bol j → matchUse (s.drop j) = none) →
    (findUsesFuel fuel s pos bol).head? = some (pos + i) := by
  intro fuel
  induction fuel with
  | zero =>
    intro s pos bol i hf _ hm _
    have hnil : s = [] := List.length_eq_zero.mp (Nat.le_zero.mp hf)
    subst hnil
    rw [List.drop_nil] at hm
    exact absurd hm (by decide)
  | succ f ih =>
    intro s pos bol i hf hb hm hj
    cases s with
    | nil =>
      rw [List.drop_nil] at hm
      exact absurd hm (by decide)
    | cons c cs =>
      by_cases hbol : bol = true
      · subst hbol
        cases hmm : matchUse (c :: cs) with
        | some n =>
          have hi0 : i = 0 := by
            by_contra hne
            have := hj 0 (Nat.pos_of_ne_zero hne) (by simp [bolR])
            rw [List.drop_zero, hmm] at this
            exact Option.noConfusion this
          subst hi0
          unfold findUsesFuel
          rw [if_pos rfl, hmm]
          simp
        | none =>
          have hi0 : i ≠ 0 := by
            intro h0
            subst h0
            rw [List.drop_zero, hmm] at hm
            exact absurd hm (by decide)
          obtain ⟨i', rfl⟩ : ∃ i', i = i' + 1 := ⟨i - 1, by omega⟩
          unfold findUsesFuel
          rw [if_pos rfl, hmm]
          have hrec := ih cs (pos + 1) (c == '\n') i'
            (by simp at hf ⊢; omega) (bolR_cons.mp hb) (by simpa using hm)
            (fun j hjlt hbj => by
              simpa using hj (j + 1) (by omega) (bolR_cons.mpr hbj))
          rw [hrec]
          congr 1
          omega
      · have hbf : bol = false := by revert hbol; cases bol <;> simp
        subst hbf
        have hi0 : i ≠ 0 := by
          intro h0
          subst h0
          simp [bolR] at hb
        obtain ⟨i', rfl⟩ : ∃ i', i = i' + 1 := ⟨i - 1, by omega⟩
        unfold findUsesFuel
        rw [if_neg (by simp)]
        have hrec := ih cs (pos + 1) (c == '\n') i'
          (by simp at hf ⊢; omega) (bolR_cons.mp hb) (by simpa using hm)
          (fun j hjlt hbj => by
            simpa using hj (j + 1) (by omega) (bolR_cons.mpr hbj))
        rw [hrec]
        congr 1
        omega

/-- What the first reported scan offset means: a use match at that line
start and at no earlier line start. -/
theorem findUses_head_elim : ∀ (fuel : Nat) (s : List Char) (pos : Nat)
    (bol : Bool) (h : Nat), (findUsesFuel fuel s pos bol).head? = some h →
    ∃ i, h = pos + i ∧ bolR s bol i ∧ (matchUse (s.drop i)).isSome ∧
      ∀ j, j < i → bolR s bol j → matchUse (s.drop j) = none := by
  intro fuel
  induction fuel with
  | zero =>
    intro s pos bol hh h
    exact Option.noConfusion h
  | succ f ih =>
    intro s pos bol hh h
    cases s with
    | nil => exact Option.noConfusion h
    | cons c cs =>
      unfold findUsesFuel at h
      by_cases hbol : bol = true
      · subst hbol
        rw [if_pos rfl] at h
        cases hmm : matchUse (c :: cs) with
        | some n =>
          rw [hmm] at h
          rw [List.head?_cons, Option.some.injEq] at h
          refine ⟨0, by omega, by simp [bolR], ?_,
            fun j hj _ => absurd hj (Nat.not_lt_zero j)⟩
          rw [List.drop_zero, hmm]
          rfl
        | none =>
          rw [hmm] at h
          obtain ⟨i', hhi, hbi, hmi, hji⟩ := ih cs (pos + 1) (c == '\n') hh h
          refine ⟨i' + 1, by omega, bolR_cons.mpr hbi, by simpa using hmi, ?_⟩
          intro j hjlt hbj
          cases j with
          | zero => simpa using hmm
          | succ j' =>
            simpa using hji j' (by omega) (bolR_cons.mp hbj)
      · have hbf : bol = false := by revert hbol; cases bol <;> simp
        subst hbf
        rw [if_neg (by simp)] at h
        obtain ⟨i', hhi, hbi, hmi, hji⟩ := ih cs (pos + 1) (c == '\n') hh h
        refine ⟨i' + 1, by omega, bolR_cons.mpr hbi, by simpa using hmi, ?_⟩
        intro j hjlt hbj
        cases j with
        | zero => simp [bolR] at hbj
        | succ j' =>
          simpa using hji j' (by omega) (bolR_cons.mp hbj)

/-! ### Appending to a text that already has both first matches -/

/-- The guard offset of `c` survives appending anything to `c`. -/
theorem abspath_check_append {c : List Char} (A : List Char) {g : Nat}
    (hg : abspath_check c = some g) : abspath_check (c ++ A) = some g := by
  obtain ⟨i, hgi, hi, hj⟩ := searchGuardFrom_elim c 0 g hg
  obtain ⟨m, hm⟩ := Option.isSome_iff_exists.mp hi
  have hiL : i < c.length := by
    have hb := matchGuard_bounds hm
    rw [List.length_drop] at hb
    omega
  have hkey : searchGuardFrom (c ++ A) 0 = some (0 + i) := by
    apply searchGuardFrom_intro
    · rw [List.drop_append_of_le_length (by omega)]
      exact Option.isSome_iff_exists.mpr ⟨m, matchGuard_append A hm⟩
    · intro j hjlt
      rw [List.drop_append_of_le_length (by omega)]
      by_contra hne
      obtain ⟨n, hn⟩ := Option.ne_none_iff_exists.mp hne
      have hδm : matchGuard ((c.drop j).drop (i - j)) = some m := by
        rw [List.drop_drop]
        rw [show j + (i - j) = i by omega]
        exact hm
      have := matchGuard_span hn.symm hδm (by omega)
        (by rw [List.length_drop]; omega)
      rw [hj j hjlt] at this
      exact absurd this (by decide)
  rw [abspath_check, hkey, hgi]

/-- The first use offset of `c` survives appending anything to `c`. -/
theorem use_statements_head_append {c : List Char} (A : List Char) {u : Nat}
    (hu : (use_statements c).head? = some u) :
    (use_statements (c ++ A)).head? = some u := by
  obtain ⟨i, hui, hb, hi, hj⟩ := findUses_head_elim c.length c 0 true u hu
  obtain ⟨m, hm⟩ := Option.isSome_iff_exists.mp hi
  have hiL : i < c.length := by
    have hbd := matchUse_bounds hm
    rw [List.length_drop] at hbd
    omega
  have hkey : (findUsesFuel (c ++ A).length (c ++ A) 0 true).head? =
      some (0 + i) := by
    apply findUses_head_intro
    · exact le_refl _
    · unfold bolR at hb ⊢
      split_ifs at hb ⊢ with h0
      · exact hb
      · rw [List.get?_append (by omega)]
        exact hb
    · rw [List.drop_append_of_le_length (by omega)]
      exact matchUse_append_isSome A hi
    · intro j hjlt hbj
      have hbcj : bolR c true j := by
        unfold bolR at hbj ⊢
        split_ifs at hbj ⊢ with h0
        · exact hbj
        · rwa [List.get?_append (by omega)] at hbj
      rw [List.drop_append_of_le_length (by omega)]
      by_contra hne
      obtain ⟨n, hn⟩ := Option.ne_none_iff_exists.mp hne
      have hδm : matchUse ((c.drop j).drop (i - j)) = some m := by
        rw [List.drop_drop]
        rw [show j + (i - j) = i by omega]
        exact hm
      have hnlc : (c.drop j).get? (i - j - 1) = some '\n' := by
        rw [List.get?_drop]
        unfold bolR at hb
        rw [if_neg (by omega)] at hb
        rw [show j + (i - j - 1) = i - 1 by omega]
        exact hb
      have := matchUse_span hn.symm hδm (by omega)
        (by rw [List.length_drop]; omega) hnlc
      rw [hj j hjlt hbcj] at this
      exact absurd this (by decide)
  rw [use_statements, hkey, hui]

/-- `check_file` in terms of the first use offset and the guard offset. -/
theorem check_file_spec (fp : String) (c : List Char) {u g : Nat}
    (hu : (use_statements c).head? = some u) (hg : abspath_check c = some g) :
    check_file fp c = if g < u then some fp else none := by
  unfold check_file
  cases huse : use_statements c with
  | nil => rw [huse] at hu; exact Option.noConfusion hu
  | cons u0 us =>
    rw [huse, List.head?_cons, Option.some.injEq] at hu
    rw [hg, hu]

/-! ### Walker-level helper lemmas -/

/-- `check_file` never alters the path it is given. -/
theorem check_file_self {fp x : String} {content : List Char}
    (h : check_file fp content = some x) : x = fp := by
  unfold check_file at h
  split at h
  · exact Option.noConfusion h
  · exact Option.noConfusion h
  · split_ifs at h
    exact (Option.some.injEq _ _ ▸ h).symm

/-- Neither does `check_file` with its read modelled. -/
theorem check_fileRead_self {fp x : String} {r : Option (List Char)}
    (h : check_fileRead fp r = some x) : x = fp := by
  unfold check_fileRead at h
  split at h
  · exact Option.noConfusion h
  · exact check_file_self h

/-- Every printed path belongs to a candidate entry of the tree and is
that entry's own path. -/
theorem walkOutput_mem {tree : List FSEntry} {p : String}
    (hp : p ∈ walkOutput tree) :
    ∃ e ∈ tree, isCandidate e = true ∧ p = entryPath e := by
  unfold walkOutput at hp
  obtain ⟨e, he, hstep⟩ := List.mem_filterMap.mp hp
  unfold walkStep at hstep
  split_ifs at hstep with hc
  refine ⟨e, he, hc, ?_⟩
  split at hstep
  case _ p' hcf =>
    split_ifs at hstep
    have hp' : p' = p := Option.some.injEq _ _ ▸ hstep
    rw [← hp']
    exact check_fileRead_self hcf
  all_goals exact Option.noConfusion hstep

/-- An entry the walk body ignores contributes nothing to the output. -/
theorem walkOutput_drop_none {t1 t2 : List FSEntry} {e : FSEntry}
    (h : walkStep e = none) :
    walkOutput (t1 ++ e :: t2) = walkOutput (t1 ++ t2) := by
  unfold walkOutput
  rw [List.filterMap_append, List.filterMap_append, List.filterMap_cons, h]

/-! ### Concrete fixture texts and tree entries -/

/-- Scenario A of the spec: guard line before the `use` line. -/
def scenarioA : List Char :=
  "<?php\nif (!defined(\x27ABSPATH\x27)) \x7b return; \x7d\nuse Foo\\Bar;\n".toList

/-- Scenario B of the spec: `use` line before the guard line. -/
def scenarioB : List Char :=
  "<?php\nuse Foo\\Bar;\nif (!defined(\x27ABSPATH\x27)) \x7b return; \x7d\n".toList

/-- A guard-like substring whose opening quote is single and closing quote
is double. -/
def mismatchedGuard : List Char := "defined(\x27ABSPATH\")".toList

/-- A later additional `use` occurrence, to be appended after scenario A. -/
def appendedUse : List Char := "\nuse Baz;\n".toList

/-- A text with neither pattern. -/
def noUseContent : List Char := "<?php\n".toList

def pathA : String := "src/a.php"

def pathB : String := "src/b.php"

def entryA : FSEntry := ⟨"src", "a.php", some scenarioA⟩

def entryB : FSEntry := ⟨"src", "b.php", some scenarioB⟩

def entryIdx : FSEntry := ⟨"src", "index.php", some scenarioA⟩

def entryUnreadable : FSEntry := ⟨"src", "c.php", none⟩

def entryNoUse : FSEntry := ⟨"src", "n.php", some noUseContent⟩

/-! ### The claims -/

/-- C1: for a text with at least one use-statement match and a guard
match, `check_file` returns the path exactly when the guard offset is
strictly below the first use offset, and equal offsets yield no verdict. -/
theorem C1_verdict_strict_lt (fp : String) (content : List Char)
    (u g : Nat) (us : List Nat)
    (hu : use_statements content = u :: us)
    (hg : abspath_check content = some g) :
    (check_file fp content = some fp ↔ g < u) ∧
    (g = u → check_file fp content = none) := by
  have hsp := check_file_spec fp content (show _ by rw [hu]; rfl) hg
  constructor
  · rw [hsp]
    by_cases h : g < u
    · simp [h]
    · simp [h]
  · intro he
    rw [hsp, if_neg (by omega)]

/-- C1 witness: scenario A has its guard at offset 11 and its first use
statement at offset 43. -/
theorem C1_verdict_strict_lt_witness :
    (check_file pathA scenarioA = some pathA ↔ 11 < 43) ∧
    (11 = 43 → check_file pathA scenarioA = none) :=
  C1_verdict_strict_lt pathA scenarioA 43 11 [] (by decide) (by decide)

/-- C2: the verdict depends only on the first use offset and the guard
offset: texts agreeing on those two offsets get the same result, and
appending anything (in particular later occurrences of either pattern)
to a text containing both patterns never changes the result. -/
theorem C2_first_offsets_determine (fp : String) :
    (∀ (c1 c2 : List Char) (u g : Nat),
      (use_statements c1).head? = some u →
      (use_statements c2).head? = some u →
      abspath_check c1 = some g → abspath_check c2 = some g →
      check_file fp c1 = check_file fp c2) ∧
    (∀ (c A : List Char) (u g : Nat),
      (use_statements c).head? = some u → abspath_check c = some g →
      check_file fp (c ++ A) = check_file fp c) := by
  constructor
  · intro c1 c2 u g h1 h2 hg1 hg2
    rw [check_file_spec fp c1 h1 hg1, check_file_spec fp c2 h2 hg2]
  · intro c A u g hu hg
    rw [check_file_spec fp c hu hg,
      check_file_spec fp (c ++ A) (use_statements_head_append A hu)
        (abspath_check_append A hg)]

/-- C2 witness: appending a further `use` line to scenario A leaves the
verdict unchanged. -/
theorem C2_first_offsets_determine_witness :
    check_file pathA (scenarioA ++ appendedUse) = check_file pathA scenarioA :=
  (C2_first_offsets_determine pathA).2 scenarioA appendedUse 43 11
    (by decide) (by decide)

/-- C3: when either pattern is absent the rule is inapplicable:
`check_file` returns `None` whatever the path, and the walker does not
print such a file. -/
theorem C3_inapplicable :
    (∀ (fp : String) (content : List Char),
      use_statements content = [] ∨ abspath_check content = none →
      check_file fp content = none) ∧
    (∀ (t1 t2 : List FSEntry) (e : FSEntry) (content : List Char),
      e.read = some content →
      use_statements content = [] ∨ abspath_check content = none →
      walkOutput (t1 ++ e :: t2) = walkOutput (t1 ++ t2)) := by
  have hnone : ∀ (fp : String) (content : List Char),
      use_statements content = [] ∨ abspath_check content = none →
      check_file fp content = none := by
    intro fp content h
    cases huse : use_statements content with
    | nil =>
      cases habs : abspath_check content with
      | none => unfold check_file; rw [huse, habs]
      | some g => unfold check_file; rw [huse, habs]
    | cons u us =>
      rcases h with h | h
      · rw [h] at huse; exact List.noConfusion huse
      · unfold check_file; rw [huse, h]
  refine ⟨hnone, ?_⟩
  intro t1 t2 e content hread h
  apply walkOutput_drop_none
  have hcf : check_fileRead (entryPath e) e.read = none := by
    rw [hread]
    simp only [check_fileRead]
    exact hnone _ _ h
  unfold walkStep
  rw [hcf]
  split_ifs <;> rfl

/-- C3 witness: a file with neither pattern is dropped from the walk. -/
theorem C3_inapplicable_witness :
    walkOutput ([entryA] ++ entryNoUse :: []) = walkOutput ([entryA] ++ []) :=
  C3_inapplicable.2 [entryA] [] entryNoUse noUseContent rfl
    (Or.inl (by decide))

/-- C4 counterexample: the claim says mismatched quotes are not a guard
match; the code's pattern uses two independent quote classes, so
defined(&#39;ABSPATH&quot;) is reported as a guard at offset 0, while the
matching-quote pattern of the spec rejects it. -/
theorem C4_counterexample :
    abspath_check mismatchedGuard = some 0 ∧
    matchGuardMatching mismatchedGuard = none := by
  constructor <;> decide

/-- C4 (amended): the guard offset is the position of the leftmost match
of `defined(`, optional whitespace, a quote, `ABSPATH`, a quote chosen
independently of the first, optional whitespace, `)`. -/
theorem C4_guard_shape (content : List Char) (g : Nat)
    (hg : abspath_check content = some g) :
    (∃ w1 q1 q2 w2 rest, content.drop g = definedLit ++
        (w1 ++ (q1 :: (abspathLit ++ (q2 :: (w2 ++ (')' :: rest)))))) ∧
      (∀ ch ∈ w1, pySpace ch = true) ∧ pyQuote q1 = true ∧
      pyQuote q2 = true ∧ (∀ ch ∈ w2, pySpace ch = true)) ∧
    ∀ j, j < g → matchGuard (content.drop j) = none := by
  obtain ⟨i, hgi, hi, hj⟩ := searchGuardFrom_elim content 0 g hg
  have hig : i = g := by omega
  subst hig
  obtain ⟨m, hm⟩ := Option.isSome_iff_exists.mp hi
  rw [matchGuard_iff] at hm
  obtain ⟨w1, q1, q2, w2, rest, hv, hall1, hq1, hq2, hall2, _⟩ := hm
  exact ⟨⟨w1, q1, q2, w2, rest, hv, hall1, hq1, hq2, hall2⟩, hj⟩

/-- C4 witness: the guard of scenario A, at offset 11, has this shape. -/
theorem C4_guard_shape_witness :
    (∃ w1 q1 q2 w2 rest, scenarioA.drop 11 = definedLit ++
        (w1 ++ (q1 :: (abspathLit ++ (q2 :: (w2 ++ (')' :: rest)))))) ∧
      (∀ ch ∈ w1, pySpace ch = true) ∧ pyQuote q1 = true ∧
      pyQuote q2 = true ∧ (∀ ch ∈ w2, pySpace ch = true)) ∧
    ∀ j, j < 11 → matchGuard (scenarioA.drop j) = none :=
  C4_guard_shape scenarioA 11 (by decide)

/-- C5: every printed path comes from an entry whose base name ends in
`.php` and is not `index.php`, and an entry named `index.php` contributes
nothing to the output whatever its content. -/
theorem C5_name_filter :
    (∀ (tree : List FSEntry) (p : String), p ∈ walkOutput tree →
      ∃ e ∈ tree, isCandidate e = true ∧ p = entryPath e) ∧
    (∀ (t1 t2 : List FSEntry) (e : FSEntry), e.filename = "index.php" →
      walkOutput (t1 ++ e :: t2) = walkOutput (t1 ++ t2)) := by
  constructor
  · intro tree p hp
    exact walkOutput_mem hp
  · intro t1 t2 e hfe
    apply walkOutput_drop_none
    have hcand : isCandidate e = false := by
      unfold isCandidate
      rw [hfe]
      decide
    unfold walkStep
    rw [hcand]
    rfl

/-- C5 witness: an `index.php` entry with violating content drops out. -/
theorem C5_name_filter_witness :
    walkOutput ([entryA] ++ entryIdx :: []) = walkOutput ([entryA] ++ []) :=
  C5_name_filter.2 [entryA] [] entryIdx rfl

/-- C6: a candidate whose read raises is silently skipped: the modelled
`check_file` returns `None` on a failed read, and the walk output is the
same as if the entry were absent, so the scan continues. -/
theorem C6_read_failure_skipped :
    (∀ fp : String, check_fileRead fp none = none) ∧
    (∀ (t1 t2 : List FSEntry) (e : FSEntry), e.read = none →
      walkOutput (t1 ++ e :: t2) = walkOutput (t1 ++ t2)) := by
  constructor
  · intro fp
    rfl
  · intro t1 t2 e h
    apply walkOutput_drop_none
    have hcf : check_fileRead (entryPath e) e.read = none := by
      rw [h]
      rfl
    unfold walkStep
    rw [hcf]
    split_ifs <;> rfl

/-- C6 witness: an unreadable `.php` file drops out of a concrete scan. -/
theorem C6_read_failure_skipped_witness :
    walkOutput ([entryA] ++ entryUnreadable :: [entryB]) =
      walkOutput ([entryA] ++ [entryB]) :=
  C6_read_failure_skipped.2 [entryA] [entryB] entryUnreadable rfl

/-- C7: scenario A (guard before use) is flagged and printed; scenario B
(use before guard) is not flagged. -/
theorem C7_scenarios :
    check_file pathA scenarioA = some pathA ∧
    walkOutput [entryA] = [pathA] ∧
    check_file pathB scenarioB = none ∧
    walkOutput [entryB] = [] := by
  refine ⟨by decide, by decide, by decide, by decide⟩

/-- C8: the detection rule is a deterministic pure function of the text:
any two evaluations of `check_file` on the same content agree. -/
theorem C8_deterministic (fp : String) (content : List Char)
    (r1 r2 : Option String) (h1 : r1 = check_file fp content)
    (h2 : r2 = check_file fp content) : r1 = r2 := by
  rw [h1, h2]

/-- C8 witness: two evaluations on scenario A agree. -/
theorem C8_deterministic_witness :
    check_file pathA scenarioA = check_file pathA scenarioA :=
  C8_deterministic pathA scenarioA _ _ rfl rfl

/-- C9: two runs of the walker over the same unchanged tree print the
same paths: the outputs are equal as lists, hence as sets. -/
theorem C9_idempotent (tree : List FSEntry) (o1 o2 : List String)
    (h1 : o1 = walkOutput tree) (h2 : o2 = walkOutput tree) :
    o1 = o2 ∧ ∀ p, p ∈ o1 ↔ p ∈ o2 := by
  subst h1
  subst h2
  exact ⟨rfl, fun p => Iff.rfl⟩

/-- C9 witness: two runs over a concrete tree coincide. -/
theorem C9_idempotent_witness :
    walkOutput [entryA, entryB] = walkOutput [entryA, entryB] ∧
    ∀ p, p ∈ walkOutput [entryA, entryB] ↔ p ∈ walkOutput [entryA, entryB] :=
  C9_idempotent [entryA, entryB] _ _ rfl rfl

/-- C10: `check_file` returns `None` or exactly its input path, and every
printed line is the path of a candidate entry the walker examined. -/
theorem C10_path_unchanged :
    (∀ (fp : String) (content : List Char),
      check_file fp content = none ∨ check_file fp content = some fp) ∧
    (∀ (tree : List FSEntry) (p : String), p ∈ walkOutput tree →
      ∃ e ∈ tree, isCandidate e = true ∧ p = entryPath e) := by
  constructor
  · intro fp content
    cases huse : use_statements content with
    | nil =>
      left
      cases habs : abspath_check content with
      | none => unfold check_file; rw [huse, habs]
      | some g => unfold check_file; rw [huse, habs]
    | cons u us =>
      cases hg : abspath_check content with
      | none =>
        left
        unfold check_file
        rw [huse, hg]
      | some g =>
        have hsp := check_file_spec fp content
          (show _ by rw [huse]; rfl) hg
        by_cases h : g < u
        · right
          rw [hsp, if_pos h]
        · left
          rw [hsp, if_neg h]
  · intro tree p hp
    exact walkOutput_mem hp

/-- C10 witness: the one printed path of a concrete scan is the path of
the examined candidate. -/
theorem C10_path_unchanged_witness :
    ∃ e ∈ [entryA], isCandidate e = true ∧ pathA = entryPath e :=
  C10_path_unchanged.2 [entryA] pathA (by decide)

end Starmus
